import Mathlib

/-!
Verification of the CSS scanner-fixer (finder.py) against its specification.

Text is modelled as List Char (Python str).  The three regex rules of
fix_patterns are embedded as executable scanners with the exact semantics of
re.sub for those patterns (leftmost, non-overlapping matches, lazy and greedy
subexpressions resolved as the Python engine does):

  Rule A:  (@import .*?;)\s*\*/$   ->  \1      (no re.MULTILINE: the dollar
           anchor only matches at end of string or just before a final
           newline; the dot never matches a newline; .*? is lazy)
  Rule B:  http:/\*                ->  http://
  Rule C:  (\*/\s*)\*/             ->  \1

The directory walk of process_css_files (os.walk with the node_modules
pruning and the .css filter), the per-file try/except and the two counters
are embedded below as well.
-/

namespace Finder

/-- Python re "\s" for str patterns: the Unicode whitespace characters
recognised by CPython's sre engine. -/
def isPySpace (c : Char) : Bool :=
  c == ' ' || c == '\t' || c == '\n' || c == '\r' || c == '\x0b' || c == '\x0c' ||
  c == '\x1c' || c == '\x1d' || c == '\x1e' || c == '\x1f' ||
  c == '\x85' || c == '\xa0' || c == '\u1680' ||
  (decide ('\u2000' ≤ c) && decide (c ≤ '\u200a')) ||
  c == '\u2028' || c == '\u2029' || c == '\u202f' || c == '\u205f' || c == '\u3000'

/-- Literal "@import " that opens rule A's pattern. -/
def impLit : List Char := ['@', 'i', 'm', 'p', 'o', 'r', 't', ' ']

/-- Literal "http:/*" of rule B's pattern. -/
def urlBad : List Char := ['h', 't', 't', 'p', ':', '/', '*']

/-- Literal replacement "http://" of rule B. -/
def urlGood : List Char := ['h', 't', 't', 'p', ':', '/', '/']

/-- Literal closing-comment marker. -/
def ccLit : List Char := ['*', '/']

/-! ## Rule A -/

/-- Attempt to complete rule A's pattern after the literal "@import " has
been consumed: the lazy ".*?;" followed by greedy "\s*", the literal closing
marker and the dollar anchor.  Returns the remaining characters of capture
group 1 (everything up to and including the semicolon) together with the
residual text after the match (which the anchor forces to be empty or a
single final newline).  The lazy group tries the earliest semicolon first and
on failure extends past it; a newline or the end of the text kills the
attempt because the dot of ".*?" cannot cross a newline.  Greedy "\s*" must
swallow the maximal whitespace run, as no whitespace character can begin
the closing marker. -/
def tryImp : List Char → Option (List Char × List Char)
  | [] => none
  | c :: cs =>
    if c = '\n' then none
    else if c = ';' then
      if cs.dropWhile isPySpace = ['*', '/'] ∨ cs.dropWhile isPySpace = ['*', '/', '\n'] then
        some ([';'], (cs.dropWhile isPySpace).drop 2)
      else
        match tryImp cs with
        | some (tl, res) => some (';' :: tl, res)
        | none => none
    else
      match tryImp cs with
      | some (tl, res) => some (c :: tl, res)
      | none => none

/-- A full rule A match starting exactly at the head of the text. -/
def matchA (s : List Char) : Option (List Char × List Char) :=
  if impLit.isPrefixOf s then tryImp (s.drop 8) else none

/-- One pass of re.sub for rule A, fuelled (the fuel is always at least the
length of the text, and the scanner consumes at least one character per
step). -/
def subAAux : Nat → List Char → List Char
  | 0, s => s
  | _ + 1, [] => []
  | n + 1, c :: cs =>
    match matchA (c :: cs) with
    | some (tl, res) => impLit ++ tl ++ subAAux n res
    | none => c :: subAAux n cs

/-- One pass of re.sub for rule A on the whole text. -/
def subA (s : List Char) : List Char := subAAux s.length s

/-- Whether re.search would find a rule A match anywhere in the text. -/
def hasMatchA : List Char → Bool
  | [] => false
  | c :: cs => (matchA (c :: cs)).isSome || hasMatchA cs

/-! ## Rule B -/

/-- One pass of re.sub for rule B, fuelled. -/
def subBAux : Nat → List Char → List Char
  | 0, s => s
  | _ + 1, [] => []
  | n + 1, c :: cs =>
    if urlBad.isPrefixOf (c :: cs) then urlGood ++ subBAux n (cs.drop 6)
    else c :: subBAux n cs

/-- One pass of re.sub for rule B on the whole text. -/
def subB (s : List Char) : List Char := subBAux s.length s

/-- Whether the text contains the literal "http:/*" anywhere. -/
def hasMatchB : List Char → Bool
  | [] => false
  | c :: cs => urlBad.isPrefixOf (c :: cs) || hasMatchB cs

/-! ## Rule C -/

/-- A rule C match starting exactly at the head of the text: a closing
marker, a greedy whitespace run, and a second closing marker.  As for rule A,
greediness is unambiguous: the second marker can only start right after the
maximal whitespace run. -/
def atMatchC (s : List Char) : Bool :=
  ccLit.isPrefixOf s && ccLit.isPrefixOf ((s.drop 2).dropWhile isPySpace)

/-- One pass of re.sub for rule C, fuelled.  On a match the replacement is
capture group 1, that is the first marker together with the whitespace run;
scanning resumes after the second marker. -/
def subCAux : Nat → List Char → List Char
  | 0, s => s
  | _ + 1, [] => []
  | n + 1, c :: cs =>
    if atMatchC (c :: cs) then
      '*' :: '/' :: (cs.tail.takeWhile isPySpace ++
        subCAux n ((cs.tail.dropWhile isPySpace).drop 2))
    else c :: subCAux n cs

/-- One pass of re.sub for rule C on the whole text. -/
def subC (s : List Char) : List Char := subCAux s.length s

/-- Whether re.search would find a rule C match anywhere in the text. -/
def hasMatchC : List Char → Bool
  | [] => false
  | c :: cs => atMatchC (c :: cs) || hasMatchC cs

/-- The full rule table of fix_patterns, applied in the dictionary's
insertion order: rule A, then rule B, then rule C, one substitution pass
each. -/
def fixAll (t : List Char) : List Char := subC (subB (subA t))

/-! ## The run: traversal, per-file processing, counters

A file on disk: its text, and two oracles telling whether the OS read
(open for reading plus read) and the OS rewrite (open for writing plus
write) would raise.  In the Python code both raises land in the same
per-file except clause. -/

structure FileNode where
  content : List Char
  readOk : Bool
  writeOk : Bool
deriving DecidableEq

/-- The two counters of process_css_files. -/
structure RunState where
  files_processed : Nat
  errors_found : Nat
deriving DecidableEq

/-- The body of the per-file try/except of process_css_files, acting on the
counters.  A read failure jumps to the except clause before anything else; a
write failure in fix mode jumps there after errors_found was incremented and
before files_processed was. -/
def processFile (fix_mode : Bool) (st : RunState) (f : FileNode) : RunState :=
  if f.readOk then
    if fixAll f.content ≠ f.content then
      if fix_mode then
        if f.writeOk then ⟨st.files_processed + 1, st.errors_found + 1⟩
        else ⟨st.files_processed, st.errors_found + 1⟩
      else ⟨st.files_processed + 1, st.errors_found + 1⟩
    else ⟨st.files_processed + 1, st.errors_found⟩
  else st

/-- Observable filesystem and console effects of one per-file iteration:
the attempted read, the attempted rewrite, and the per-file error line
printed by the except clause (which carries the file path). -/
inductive Event where
  | readF (p : List String)
  | writeF (p : List String) (content : List Char)
  | logErr (p : List String)
deriving DecidableEq

/-- Path a single event touches. -/
def eventPath : Event → List String
  | .readF p => p
  | .writeF p _ => p
  | .logErr p => p

/-- Whether an event is a file write. -/
def Event.isWrite : Event → Bool
  | .writeF _ _ => true
  | _ => false

/-- Events of one per-file iteration, in program order. -/
def fileEvents (fix_mode : Bool) (p : List String) (f : FileNode) : List Event :=
  if f.readOk then
    if fixAll f.content ≠ f.content then
      if fix_mode then
        if f.writeOk then [Event.readF p, Event.writeF p (fixAll f.content)]
        else [Event.readF p, Event.writeF p (fixAll f.content), Event.logErr p]
      else [Event.readF p]
    else [Event.readF p]
  else [Event.readF p, Event.logErr p]

/-- On-disk bytes of a file after its iteration: only a successful rewrite
in fix mode of a changed file mutates them. -/
def finalContent (fix_mode : Bool) (f : FileNode) : List Char :=
  if f.readOk ∧ fixAll f.content ≠ f.content ∧ fix_mode ∧ f.writeOk then fixAll f.content
  else f.content

/-! ## The directory tree and os.walk

A directory holds a list of named subdirectories and a list of named files;
the mutual presentation keeps every definition structurally recursive and
hence computable by the kernel. -/

mutual
inductive FSDir where
  | mk : DirList → List (String × FileNode) → FSDir
inductive DirList where
  | nil : DirList
  | cons : String → FSDir → DirList → DirList
end

/-- Number of entries of a sibling list named node_modules.  On a real
filesystem sibling names are unique, so this is 0 or 1; well-formedness
below demands no more than 1, which is what makes the single
dirs.remove of the Python code prune every node_modules directory. -/
def nmCount : DirList → Nat
  | .nil => 0
  | .cons nm _ rest => (if nm = "node_modules" then 1 else 0) + nmCount rest

mutual
/-- Well-formedness: in every directory, at most one sibling is named
node_modules (true of any real directory tree, where sibling names are
unique). -/
def FSDir.wf : FSDir → Bool
  | .mk ds _ => decide (nmCount ds ≤ 1) && DirList.wfAll ds
/-- All subdirectories of the list are well-formed. -/
def DirList.wfAll : DirList → Bool
  | .nil => true
  | .cons _ d rest => d.wf && DirList.wfAll rest
end

/-- Python file.endswith applied to the .css extension filter. -/
def endsCss (nm : String) : Bool := ['.', 'c', 's', 's'].isSuffixOf nm.data

/-- A file the traversal reaches: the directory path from the walk root,
the file name, and the file itself. -/
structure Visited where
  vpath : List String
  vname : String
  vnode : FileNode
deriving DecidableEq

mutual
/-- The .css files that os.walk plus the per-directory filter deliver to the
loop body, in traversal order: first the matching files of the current
directory, then the pruned subdirectories, depth first.  dirs.remove
('node_modules') deletes the first sibling of that name before descent; the
Boolean flag of walkDirs records whether the removal already happened in the
current sibling list. -/
def walkDir (path : List String) : FSDir → List Visited
  | .mk ds fs =>
    (fs.filterMap fun pr =>
      if endsCss pr.1 then some ⟨path, pr.1, pr.2⟩ else none) ++
    walkDirs path false ds
/-- Walk the sibling list; skipped tells whether a node_modules entry was
already removed from this list. -/
def walkDirs (path : List String) (skipped : Bool) : DirList → List Visited
  | .nil => []
  | .cons nm d rest =>
    if nm = "node_modules" ∧ skipped = false then walkDirs path true rest
    else walkDir (path ++ [nm]) d ++ walkDirs path skipped rest
end

/-- Files processed by one run, in order. -/
def runVisited (t : FSDir) : List Visited := walkDir [] t

/-- Counter state over an explicit list of visited files. -/
def runStateList (fix_mode : Bool) (l : List Visited) : RunState :=
  l.foldl (fun st v => processFile fix_mode st v.vnode) ⟨0, 0⟩

/-- Final counters of process_css_files. -/
def runState (fix_mode : Bool) (t : FSDir) : RunState :=
  runStateList fix_mode (runVisited t)

/-- Event trace over an explicit list of visited files. -/
def evList (fix_mode : Bool) (l : List Visited) : List Event :=
  l.flatMap fun v => fileEvents fix_mode (v.vpath ++ [v.vname]) v.vnode

/-- Full event trace of one run. -/
def runEvents (fix_mode : Bool) (t : FSDir) : List Event :=
  evList fix_mode (runVisited t)

/-- Contribution of one file to files_processed: 1 unless its iteration
ended in the except clause. -/
def procInc (fix_mode : Bool) (f : FileNode) : Nat :=
  if f.readOk ∧ ¬(fixAll f.content ≠ f.content ∧ fix_mode = true ∧ f.writeOk = false)
  then 1 else 0

/-- Contribution of one file to errors_found: 1 exactly when it was read
and the rule table changed its text. -/
def errInc (f : FileNode) : Nat :=
  if f.readOk ∧ fixAll f.content ≠ f.content then 1 else 0

/-- Sum of the files_processed contributions over a visited list. -/
def procCount (fix_mode : Bool) (l : List Visited) : Nat :=
  (l.map fun v => procInc fix_mode v.vnode).sum

/-- Sum of the errors_found contributions over a visited list. -/
def errCount (l : List Visited) : Nat :=
  (l.map fun v => errInc v.vnode).sum

/-- The filesProcessed field of the RunSummary the specification ascribes to
a run: one per visited file whose iteration did not end in the except
clause, accumulated across the whole run. -/
def filesProcessed (fix_mode : Bool) (t : FSDir) : Nat :=
  procCount fix_mode (runVisited t)

/-- The filesWithIssues field of the RunSummary: one per visited file that
was read and whose text the rule table changed, accumulated across the
whole run. -/
def filesWithIssues (t : FSDir) : Nat :=
  errCount (runVisited t)

/-! ## Concrete fixtures used to instantiate the theorems -/

/-- File with a stray closing marker after an at-import, readable and
writable. -/
def aNode : FileNode := ⟨"@import \"x.css\";   */".data, true, true⟩

/-- Clean file: none of the three patterns occur. -/
def bNode : FileNode := ⟨"body a color: red;\n".data, true, true⟩

/-- File with a broken protocol, sitting under node_modules in the demo
tree. -/
def dNode : FileNode := ⟨"url(http:/*cdn.example.com/x.png)".data, true, true⟩

/-- File whose read raises. -/
def badReadNode : FileNode := ⟨"p a".data, false, true⟩

/-- Changed file whose rewrite raises. -/
def badWriteNode : FileNode := ⟨"*/ */".data, true, false⟩

/-- Demo tree of the specification's end-to-end scenario: a.css (stray
marker), b.css (clean), b.txt (wrong extension), c/node_modules/d.css
(broken protocol, pruned). -/
def demoTree : FSDir :=
  .mk
    (DirList.cons "c"
      (.mk (DirList.cons "node_modules" (.mk .nil [("d.css", dNode)]) .nil) [])
      .nil)
    [("a.css", aNode), ("b.txt", bNode), ("b.css", bNode)]

end Finder

section ScratchRun
open Finder

example : FSDir.wf demoTree = true := by decide
example : runVisited demoTree = [⟨[], "a.css", aNode⟩, ⟨[], "b.css", bNode⟩] := by decide
example : runState false demoTree = ⟨2, 1⟩ := by decide
example : runState true demoTree = ⟨2, 1⟩ := by decide
example : runEvents false demoTree = [.readF ["a.css"], .readF ["b.css"]] := by decide

end ScratchRun

section Scratch
open Finder

example : subB "x http:/*example.com y".data = "x http://example.com y".data := by decide
example : subC "*/   */".data = "*/   ".data := by decide
example : subC "*/ */ */".data = "*/  */".data := by decide
example : subA "@import \"x.css\";   */".data = "@import \"x.css\";".data := by decide
example : subA "@import \"x.css\";   */\n".data = "@import \"x.css\";\n".data := by decide
example : subA "@import \"x.css\";   */\nbody a".data = "@import \"x.css\";   */\nbody a".data := by
  decide
example : fixAll "*/ */ */".data = "*/  */".data := by decide
example : fixAll (fixAll "*/ */ */".data) = "*/  ".data := by decide
example : subA "@import a;*/ b;   */".data = "@import a;*/ b;".data := by decide
example : subA "@import a; \n*/".data = "@import a;".data := by decide
example : subA "@import a;\n\n*/".data = "@import a;".data := by decide
example : subA "@import a; */ \n".data = "@import a; */ \n".data := by decide
example : subA "@import ;*/".data = "@import ;".data := by decide
example : subA "@import a;@import b; */".data = "@import a;@import b;".data := by decide
example : subC "*/ \t */ x */".data = "*/ \t  x */".data := by decide
example : subC "a */*/ b".data = "a */ b".data := by decide
example : subC "*/*/*/".data = "*/*/".data := by decide
example : subB "http:/*http:/*".data = "http://http://".data := by decide
example : fixAll "zz http:/* */ */ @import q; */".data = "zz http:// */  @import q;".data := by
  decide

end Scratch

namespace Finder

/-! ## Scanner lemmas -/

theorem tryImp_len : ∀ (u tl res : List Char), tryImp u = some (tl, res) →
    res.length ≤ u.length := by
  intro u
  induction u with
  | nil => intro tl res h; simp [tryImp] at h
  | cons c cs ih =>
    intro tl res h
    rw [tryImp] at h
    by_cases h1 : c = '\n'
    · rw [if_pos h1] at h; exact absurd h (by simp)
    · rw [if_neg h1] at h
      by_cases h2 : c = ';'
      · rw [if_pos h2] at h
        by_cases h3 : cs.dropWhile isPySpace = ['*', '/'] ∨
            cs.dropWhile isPySpace = ['*', '/', '\n']
        · rw [if_pos h3] at h
          have hres : res = (cs.dropWhile isPySpace).drop 2 := by
            injection h with h'
            exact (congrArg Prod.snd h').symm
          have hd : (cs.dropWhile isPySpace).length ≤ cs.length :=
            ((List.dropWhile_sublist isPySpace).length_le)
          rw [hres]
          simp only [List.length_drop, List.length_cons]
          omega
        · rw [if_neg h3] at h
          cases hc : tryImp cs with
          | none => rw [hc] at h; exact absurd h (by simp)
          | some pr =>
            rw [hc] at h
            have hres : res = pr.2 := by
              cases pr; injection h with h'
              exact (congrArg Prod.snd h').symm
            rw [hres]
            exact Nat.le_succ_of_le (ih pr.1 pr.2 (by cases pr; exact hc))
      · rw [if_neg h2] at h
        cases hc : tryImp cs with
        | none => rw [hc] at h; exact absurd h (by simp)
        | some pr =>
          rw [hc] at h
          have hres : res = pr.2 := by
            cases pr; injection h with h'
            exact (congrArg Prod.snd h').symm
          rw [hres]
          exact Nat.le_succ_of_le (ih pr.1 pr.2 (by cases pr; exact hc))

theorem matchA_res_le {s tl res : List Char} (h : matchA s = some (tl, res)) :
    res.length + 8 ≤ s.length := by
  rw [matchA] at h
  by_cases hp : impLit.isPrefixOf s = true
  · rw [if_pos hp] at h
    have h8 : 8 ≤ s.length := by
      have := (List.isPrefixOf_iff_prefix.mp hp).length_le
      simpa [impLit] using this
    have := tryImp_len (s.drop 8) tl res h
    simp only [List.length_drop] at this
    omega
  · rw [if_neg hp] at h; exact absurd h (by simp)

theorem subAAux_stable : ∀ (n m : Nat) (s : List Char), s.length ≤ n → s.length ≤ m →
    subAAux n s = subAAux m s := by
  intro n
  induction n with
  | zero =>
    intro m s hn _
    have hs : s = [] := List.length_eq_zero.mp (Nat.le_zero.mp hn)
    subst hs
    cases m <;> rfl
  | succ n ih =>
    intro m s hn hm
    cases s with
    | nil => cases m <;> rfl
    | cons c cs =>
      cases m with
      | zero => simp at hm
      | succ m =>
        rw [subAAux, subAAux]
        cases hma : matchA (c :: cs) with
        | some pr =>
          cases pr with
          | mk tl res =>
            have hlen : res.length + 8 ≤ cs.length + 1 := by
              have := matchA_res_le hma
              simpa using this
            simp only [List.length_cons] at hn hm
            exact congrArg (fun x => impLit ++ tl ++ x) (ih m res (by omega) (by omega))
        | none =>
          simp only [List.length_cons] at hn hm
          exact congrArg (c :: ·) (ih m cs (by omega) (by omega))

theorem subBAux_stable : ∀ (n m : Nat) (s : List Char), s.length ≤ n → s.length ≤ m →
    subBAux n s = subBAux m s := by
  intro n
  induction n with
  | zero =>
    intro m s hn _
    have hs : s = [] := List.length_eq_zero.mp (Nat.le_zero.mp hn)
    subst hs
    cases m <;> rfl
  | succ n ih =>
    intro m s hn hm
    cases s with
    | nil => cases m <;> rfl
    | cons c cs =>
      cases m with
      | zero => simp at hm
      | succ m =>
        rw [subBAux, subBAux]
        simp only [List.length_cons] at hn hm
        by_cases hp : urlBad.isPrefixOf (c :: cs) = true
        · rw [if_pos hp, if_pos hp]
          have : (cs.drop 6).length ≤ cs.length := by
            simp only [List.length_drop]; omega
          exact congrArg (urlGood ++ ·) (ih m (cs.drop 6) (by omega) (by omega))
        · rw [if_neg hp, if_neg hp]
          exact congrArg (c :: ·) (ih m cs (by omega) (by omega))

theorem subCAux_stable : ∀ (n m : Nat) (s : List Char), s.length ≤ n → s.length ≤ m →
    subCAux n s = subCAux m s := by
  intro n
  induction n with
  | zero =>
    intro m s hn _
    have hs : s = [] := List.length_eq_zero.mp (Nat.le_zero.mp hn)
    subst hs
    cases m <;> rfl
  | succ n ih =>
    intro m s hn hm
    cases s with
    | nil => cases m <;> rfl
    | cons c cs =>
      cases m with
      | zero => simp at hm
      | succ m =>
        rw [subCAux, subCAux]
        simp only [List.length_cons] at hn hm
        by_cases hp : atMatchC (c :: cs) = true
        · rw [if_pos hp, if_pos hp]
          have h1 : ((cs.tail.dropWhile isPySpace).drop 2).length ≤ cs.length := by
            have h2 : (cs.tail.dropWhile isPySpace).length ≤ cs.tail.length :=
              (List.dropWhile_sublist isPySpace).length_le
            have h3 : cs.tail.length ≤ cs.length := by
              cases cs <;> simp
            simp only [List.length_drop]
            omega
          rw [ih m ((cs.tail.dropWhile isPySpace).drop 2) (by omega) (by omega)]
        · rw [if_neg hp, if_neg hp]
          exact congrArg (c :: ·) (ih m cs (by omega) (by omega))

/-! ## Unfolding the one-pass substitutions -/

theorem subA_nil : subA [] = [] := rfl

theorem subA_cons_some {c : Char} {cs tl res : List Char}
    (h : matchA (c :: cs) = some (tl, res)) :
    subA (c :: cs) = impLit ++ tl ++ subA res := by
  have hlen : res.length + 8 ≤ cs.length + 1 := by simpa using matchA_res_le h
  show subAAux (cs.length + 1) (c :: cs) = _
  rw [subAAux, h]
  show impLit ++ tl ++ subAAux cs.length res = _
  rw [subAAux_stable cs.length res.length res (by omega) le_rfl]
  rfl

theorem subA_cons_none {c : Char} {cs : List Char} (h : matchA (c :: cs) = none) :
    subA (c :: cs) = c :: subA cs := by
  show subAAux (cs.length + 1) (c :: cs) = _
  rw [subAAux, h]
  show c :: subAAux cs.length cs = _
  rfl

theorem subB_nil : subB [] = [] := rfl

theorem subB_cons_pos {c : Char} {cs : List Char} (h : urlBad.isPrefixOf (c :: cs) = true) :
    subB (c :: cs) = urlGood ++ subB (cs.drop 6) := by
  show subBAux (cs.length + 1) (c :: cs) = _
  rw [subBAux, if_pos h]
  rw [subBAux_stable cs.length (cs.drop 6).length (cs.drop 6)
    (by simp only [List.length_drop]; omega) le_rfl]
  rfl

theorem subB_cons_neg {c : Char} {cs : List Char} (h : urlBad.isPrefixOf (c :: cs) = false) :
    subB (c :: cs) = c :: subB cs := by
  show subBAux (cs.length + 1) (c :: cs) = _
  rw [subBAux, if_neg (by simp [h])]
  rfl

theorem subC_nil : subC [] = [] := rfl

theorem subC_cons_pos {c : Char} {cs : List Char} (h : atMatchC (c :: cs) = true) :
    subC (c :: cs) = '*' :: '/' :: (cs.tail.takeWhile isPySpace ++
      subC ((cs.tail.dropWhile isPySpace).drop 2)) := by
  have h2 : (cs.tail.dropWhile isPySpace).length ≤ cs.tail.length :=
    (List.dropWhile_sublist isPySpace).length_le
  have h3 : cs.tail.length ≤ cs.length := by cases cs <;> simp
  show subCAux (cs.length + 1) (c :: cs) = _
  rw [subCAux, if_pos h]
  rw [subCAux_stable cs.length ((cs.tail.dropWhile isPySpace).drop 2).length
    ((cs.tail.dropWhile isPySpace).drop 2) (by simp only [List.length_drop]; omega) le_rfl]
  rfl

theorem subC_cons_neg {c : Char} {cs : List Char} (h : atMatchC (c :: cs) = false) :
    subC (c :: cs) = c :: subC cs := by
  show subCAux (cs.length + 1) (c :: cs) = _
  rw [subCAux, if_neg (by simp [h])]
  rfl

/-! ## A text with no match is left unchanged -/

theorem subA_id_of_no_match : ∀ (s : List Char), hasMatchA s = false → subA s = s := by
  intro s
  induction s with
  | nil => intro _; rfl
  | cons c cs ih =>
    intro h
    rw [hasMatchA, Bool.or_eq_false_iff] at h
    have hnone : matchA (c :: cs) = none := by
      cases hm : matchA (c :: cs) with
      | none => rfl
      | some pr => rw [hm] at h; simp at h
    rw [subA_cons_none hnone, ih h.2]

theorem subB_id_of_no_match : ∀ (s : List Char), hasMatchB s = false → subB s = s := by
  intro s
  induction s with
  | nil => intro _; rfl
  | cons c cs ih =>
    intro h
    rw [hasMatchB, Bool.or_eq_false_iff] at h
    rw [subB_cons_neg h.1, ih h.2]

theorem subC_id_of_no_match : ∀ (s : List Char), hasMatchC s = false → subC s = s := by
  intro s
  induction s with
  | nil => intro _; rfl
  | cons c cs ih =>
    intro h
    rw [hasMatchC, Bool.or_eq_false_iff] at h
    rw [subC_cons_neg h.1, ih h.2]

theorem fixAll_id_of_no_match {t : List Char} (hA : hasMatchA t = false)
    (hB : hasMatchB t = false) (hC : hasMatchC t = false) : fixAll t = t := by
  rw [fixAll, subA_id_of_no_match t hA, subB_id_of_no_match t hB, subC_id_of_no_match t hC]

/-! ## Rule B replaces every occurrence -/

theorem urlBad_take_ne : ∀ k < 7, 1 ≤ k → urlBad ≠ urlBad.take k ++ urlBad.take (7 - k) := by
  decide

theorem urlBad_no_overlap (a b : List Char) (ha : urlBad.isPrefixOf a = false)
    (hne : a ≠ []) : urlBad.isPrefixOf (a ++ (urlBad ++ b)) = false := by
  rw [Bool.eq_false_iff]
  intro h
  have hp : urlBad <+: a ++ (urlBad ++ b) := List.isPrefixOf_iff_prefix.mp h
  by_cases hlen : 7 ≤ a.length
  · have hpa : urlBad <+: a :=
      List.prefix_of_prefix_length_le hp (List.prefix_append a (urlBad ++ b))
        (by simpa [urlBad] using hlen)
    have hpa2 : urlBad.isPrefixOf a = true := List.isPrefixOf_iff_prefix.mpr hpa
    rw [ha] at hpa2
    exact absurd hpa2 (by simp)
  · have h1 : 1 ≤ a.length := List.length_pos.mpr hne
    have h6 : a.length < 7 := Nat.lt_of_not_le hlen
    obtain ⟨t, ht⟩ := hp
    have e1 : (urlBad ++ t).take 7 = urlBad := List.take_left' rfl
    have e2 : (a ++ (urlBad ++ b)).take 7 = a ++ urlBad.take (7 - a.length) := by
      rw [List.take_append_eq_append_take, List.take_of_length_le (Nat.le_of_lt h6),
        List.take_append_eq_append_take]
      have h70 : 7 - a.length - urlBad.length = 0 := by
        simp only [urlBad, List.length_cons, List.length_nil]
        omega
      rw [h70, List.take_zero, List.append_nil]
    have e3 : urlBad = a ++ urlBad.take (7 - a.length) := by
      have e0 := congrArg (List.take 7) ht
      rw [e1, e2] at e0
      exact e0
    have e4 : a = urlBad.take a.length := by
      have e0 := congrArg (List.take a.length) e3
      rw [List.take_left] at e0
      exact e0.symm
    have e5 : a ++ urlBad.take (7 - a.length) =
        urlBad.take a.length ++ urlBad.take (7 - a.length) := by rw [← e4]
    exact urlBad_take_ne a.length h6 h1 (e3.trans e5)

theorem subB_step : ∀ (a b : List Char), hasMatchB a = false →
    subB (a ++ (urlBad ++ b)) = a ++ (urlGood ++ subB b) := by
  intro a
  induction a with
  | nil =>
    intro b _
    rw [List.nil_append, List.nil_append]
    have hpre : urlBad.isPrefixOf ('h' :: (['t', 't', 'p', ':', '/', '*'] ++ b)) = true := by
      rw [show 'h' :: (['t', 't', 'p', ':', '/', '*'] ++ b) = urlBad ++ b from rfl]
      rw [List.isPrefixOf_iff_prefix]
      exact List.prefix_append urlBad b
    calc subB (urlBad ++ b) = subB ('h' :: (['t', 't', 'p', ':', '/', '*'] ++ b)) := rfl
      _ = urlGood ++ subB ((['t', 't', 'p', ':', '/', '*'] ++ b).drop 6) := subB_cons_pos hpre
      _ = urlGood ++ subB b := by rw [List.drop_left' (by rfl)]
  | cons c a' ih =>
    intro b h
    rw [hasMatchB, Bool.or_eq_false_iff] at h
    have hno : urlBad.isPrefixOf ((c :: a') ++ (urlBad ++ b)) = false :=
      urlBad_no_overlap (c :: a') b h.1 (by simp)
    rw [List.cons_append] at hno ⊢
    rw [subB_cons_neg hno, ih b h.2, List.cons_append]

/-! ## Rule C keeps the whitespace of capture group 1 -/

theorem subC_marker_pair (ws : List Char) (hws : ∀ c ∈ ws, isPySpace c = true) :
    subC (ccLit ++ ws ++ ccLit) = ccLit ++ ws := by
  have hshape : ccLit ++ ws ++ ccLit = '*' :: '/' :: (ws ++ ccLit) := by
    simp [ccLit]
  have hdrop : (ws ++ ccLit).dropWhile isPySpace = ccLit := by
    rw [List.dropWhile_append_of_pos hws]
    decide
  have htake : (ws ++ ccLit).takeWhile isPySpace = ws := by
    rw [List.takeWhile_append_of_pos hws]
    have h0 : List.takeWhile isPySpace ccLit = [] := by decide
    rw [h0, List.append_nil]
  have hm : atMatchC ('*' :: '/' :: (ws ++ ccLit)) = true := by
    rw [atMatchC]
    have h0 : (('*' :: '/' :: (ws ++ ccLit)).drop 2) = ws ++ ccLit := rfl
    rw [h0, hdrop]
    simp [ccLit, List.isPrefixOf]
  rw [hshape, subC_cons_pos hm]
  show '*' :: '/' :: ((ws ++ ccLit).takeWhile isPySpace ++
      subC (((ws ++ ccLit).dropWhile isPySpace).drop 2)) = _
  rw [htake, hdrop]
  show '*' :: '/' :: (ws ++ subC []) = _
  rw [subC_nil, List.append_nil]
  simp [ccLit]

/-! ## Counter accumulation -/

theorem processFile_eq (fm : Bool) (st : RunState) (f : FileNode) :
    processFile fm st f =
      ⟨st.files_processed + procInc fm f, st.errors_found + errInc f⟩ := by
  obtain ⟨ct, ro, wo⟩ := f
  cases ro <;> cases wo <;> cases fm <;>
    by_cases hch : fixAll ct ≠ ct <;>
    simp_all [processFile, procInc, errInc]

theorem foldl_processFile (fm : Bool) : ∀ (l : List Visited) (st : RunState),
    l.foldl (fun st v => processFile fm st v.vnode) st =
      ⟨st.files_processed + procCount fm l, st.errors_found + errCount l⟩ := by
  intro l
  induction l with
  | nil => intro st; simp [procCount, errCount]
  | cons v l ih =>
    intro st
    rw [List.foldl_cons, processFile_eq, ih]
    simp only [procCount, errCount, List.map_cons, List.sum_cons]
    congr 1 <;> omega

theorem runStateList_eq (fm : Bool) (l : List Visited) :
    runStateList fm l = ⟨procCount fm l, errCount l⟩ := by
  rw [runStateList, foldl_processFile]
  simp

theorem procCount_append (fm : Bool) (l1 l2 : List Visited) :
    procCount fm (l1 ++ l2) = procCount fm l1 + procCount fm l2 := by
  simp [procCount]

theorem errCount_append (l1 l2 : List Visited) :
    errCount (l1 ++ l2) = errCount l1 + errCount l2 := by
  simp [errCount]

theorem procCount_cons (fm : Bool) (v : Visited) (l : List Visited) :
    procCount fm (v :: l) = procInc fm v.vnode + procCount fm l := by
  simp [procCount]

theorem errCount_cons (v : Visited) (l : List Visited) :
    errCount (v :: l) = errInc v.vnode + errCount l := by
  simp [errCount]

/-! ## Event traces -/

theorem evList_append (fm : Bool) (l1 l2 : List Visited) :
    evList fm (l1 ++ l2) = evList fm l1 ++ evList fm l2 := by
  simp [evList]

theorem evList_cons (fm : Bool) (v : Visited) (l : List Visited) :
    evList fm (v :: l) =
      fileEvents fm (v.vpath ++ [v.vname]) v.vnode ++ evList fm l := by
  simp [evList]

theorem fileEvents_read_fail {fm : Bool} {p : List String} {f : FileNode}
    (h : f.readOk = false) :
    fileEvents fm p f = [Event.readF p, Event.logErr p] := by
  rw [fileEvents, if_neg (by simp [h])]

theorem fileEvents_write_fail {p : List String} {f : FileNode}
    (hr : f.readOk = true) (hch : fixAll f.content ≠ f.content) (hw : f.writeOk = false) :
    fileEvents true p f =
      [Event.readF p, Event.writeF p (fixAll f.content), Event.logErr p] := by
  rw [fileEvents, if_pos (by simp [hr]), if_pos hch, if_pos rfl, if_neg (by simp [hw])]

theorem mem_fileEvents_path {fm : Bool} {p : List String} {f : FileNode} {e : Event}
    (h : e ∈ fileEvents fm p f) : eventPath e = p := by
  rw [fileEvents] at h
  by_cases hr : f.readOk = true
  · rw [if_pos hr] at h
    by_cases hch : fixAll f.content ≠ f.content
    · rw [if_pos hch] at h
      by_cases hfm : fm = true
      · rw [if_pos hfm] at h
        by_cases hw : f.writeOk = true
        · rw [if_pos hw] at h
          simp only [List.mem_cons, List.not_mem_nil, or_false] at h
          rcases h with h | h <;> (subst h; rfl)
        · rw [if_neg hw] at h
          simp only [List.mem_cons, List.not_mem_nil, or_false] at h
          rcases h with h | h | h <;> (subst h; rfl)
      · rw [if_neg hfm] at h
        simp only [List.mem_cons, List.not_mem_nil, or_false] at h
        subst h; rfl
    · rw [if_neg hch] at h
      simp only [List.mem_cons, List.not_mem_nil, or_false] at h
      subst h; rfl
  · rw [if_neg hr] at h
    simp only [List.mem_cons, List.not_mem_nil, or_false] at h
    rcases h with h | h <;> (subst h; rfl)

theorem fileEvents_scan_no_write {p : List String} {f : FileNode} {e : Event}
    (h : e ∈ fileEvents false p f) : Event.isWrite e = false := by
  rw [fileEvents] at h
  by_cases hr : f.readOk = true
  · rw [if_pos hr] at h
    by_cases hch : fixAll f.content ≠ f.content
    · rw [if_pos hch, if_neg (by simp)] at h
      simp only [List.mem_cons, List.not_mem_nil, or_false] at h
      subst h; rfl
    · rw [if_neg hch] at h
      simp only [List.mem_cons, List.not_mem_nil, or_false] at h
      subst h; rfl
  · rw [if_neg hr] at h
    simp only [List.mem_cons, List.not_mem_nil, or_false] at h
    rcases h with h | h <;> (subst h; rfl)

/-! ## Traversal invariant: only .css files outside node_modules are visited -/

mutual

theorem walkDir_inv : ∀ (path : List String) (d : FSDir), FSDir.wf d = true →
    ∀ v ∈ walkDir path d, endsCss v.vname = true ∧
      ∃ q, v.vpath = path ++ q ∧ "node_modules" ∉ q
  | path, .mk ds fs, hw => by
    intro v hv
    rw [walkDir] at hv
    rcases List.mem_append.mp hv with hv | hv
    · rcases List.mem_filterMap.mp hv with ⟨pr, _, hsome⟩
      by_cases hcss : endsCss pr.1 = true
      · rw [if_pos hcss] at hsome
        have hveq : v = ⟨path, pr.1, pr.2⟩ := by injection hsome with h2; exact h2.symm
        subst hveq
        exact ⟨hcss, [], by simp, by simp⟩
      · rw [if_neg hcss] at hsome
        exact absurd hsome (by simp)
    · rw [FSDir.wf, Bool.and_eq_true] at hw
      exact walkDirs_inv path false ds (fun _ => of_decide_eq_true hw.1)
        (fun h => absurd h (by simp)) hw.2 v hv

theorem walkDirs_inv : ∀ (path : List String) (skipped : Bool) (ds : DirList),
    (skipped = false → nmCount ds ≤ 1) → (skipped = true → nmCount ds = 0) →
    DirList.wfAll ds = true →
    ∀ v ∈ walkDirs path skipped ds, endsCss v.vname = true ∧
      ∃ q, v.vpath = path ++ q ∧ "node_modules" ∉ q
  | path, skipped, .nil, _, _, _ => by
    intro v hv
    rw [walkDirs] at hv
    exact absurd hv (List.not_mem_nil v)
  | path, skipped, .cons nm d rest, h0, h1, h2 => by
    intro v hv
    rw [walkDirs] at hv
    rw [DirList.wfAll, Bool.and_eq_true] at h2
    by_cases hnm : nm = "node_modules" ∧ skipped = false
    · rw [if_pos hnm] at hv
      refine walkDirs_inv path true rest (fun h => absurd h (by simp)) (fun _ => ?_) h2.2 v hv
      have h3 := h0 hnm.2
      rw [nmCount, if_pos hnm.1] at h3
      omega
    · rw [if_neg hnm] at hv
      have hnmne : nm ≠ "node_modules" := by
        intro heq
        cases hsk : skipped with
        | false => exact hnm ⟨heq, hsk⟩
        | true =>
          have h3 := h1 hsk
          rw [nmCount, if_pos heq] at h3
          omega
      rcases List.mem_append.mp hv with hv | hv
      · obtain ⟨hcss, q', hq', hnq'⟩ := walkDir_inv (path ++ [nm]) d h2.1 v hv
        refine ⟨hcss, nm :: q', ?_, ?_⟩
        · rw [hq', List.append_assoc]
          rfl
        · intro hmem
          rcases List.mem_cons.mp hmem with h | h
          · exact hnmne h.symm
          · exact hnq' h
      · refine walkDirs_inv path skipped rest ?_ ?_ h2.2 v hv
        · intro hsk
          have h3 := h0 hsk
          rw [nmCount, if_neg hnmne] at h3
          omega
        · intro hsk
          have h3 := h1 hsk
          rw [nmCount, if_neg hnmne] at h3
          omega

end

/-! ## Claim theorems -/

/-- C1, counterexample: the claim that the full rule table is idempotent on
every file text fails.  On the text with three chained closing markers the
second application of the table removes one more duplicate marker than the
first, so applying the table to the result of applying it does not yield
that result unchanged. -/
theorem c1_counterexample :
    fixAll (fixAll ('*' :: '/' :: ' ' :: '*' :: '/' :: ' ' :: '*' :: '/' :: [])) ≠
      fixAll ('*' :: '/' :: ' ' :: '*' :: '/' :: ' ' :: '*' :: '/' :: []) := by
  decide

/-- C1, amended: fix mode is not idempotent.  There is a file text, the one
with three chained closing markers, on which the first application of the
full rule table still leaves a double-closed comment, so a second run
changes the file again; on this text a third application finally reaches a
fixed point. -/
theorem c1_fix_not_idempotent :
    fixAll ('*' :: '/' :: ' ' :: '*' :: '/' :: ' ' :: '*' :: '/' :: []) =
      ('*' :: '/' :: ' ' :: ' ' :: '*' :: '/' :: []) ∧
    fixAll ('*' :: '/' :: ' ' :: ' ' :: '*' :: '/' :: []) =
      ('*' :: '/' :: ' ' :: ' ' :: []) ∧
    fixAll ('*' :: '/' :: ' ' :: ' ' :: []) = ('*' :: '/' :: ' ' :: ' ' :: []) := by
  decide

/-- C2: rule A is claimed to act at the end of every line, and the code's
own comment says the same, but the compiled pattern has no MULTILINE flag,
so its dollar anchor only matches at the very end of the file text (or just
before a final newline).  The rule table therefore leaves a mid-file
at-import line with a stray closing marker unchanged, while the same line
at the end of the text is rewritten. -/
theorem c2_rule_a_end_of_text_only :
    fixAll "@import \"x.css\";   */\nbody a".data = "@import \"x.css\";   */\nbody a".data ∧
    fixAll "@import \"x.css\";   */".data = "@import \"x.css\";".data ∧
    fixAll "@import \"x.css\";   */\n".data = "@import \"x.css\";\n".data := by
  decide

/-- C3, counterexample: the claim that the rule table turns the double
marker text with three interior spaces into exactly the two-character
closing marker fails: capture group 1 of rule C keeps the whitespace run,
so the output is the marker followed by the three spaces. -/
theorem c3_counterexample : fixAll "*/   */".data ≠ "*/".data := by
  decide

/-- C3, amended: rule C collapses a double-closed comment to the first
marker and the whitespace between the two markers: for any all-whitespace
gap the replacement is capture group 1, the first marker with the gap
attached; in particular the three-space input yields the marker followed by
the three spaces, not the bare marker. -/
theorem c3_rule_c_keeps_gap :
    (∀ ws : List Char, (∀ c ∈ ws, isPySpace c = true) →
      subC (ccLit ++ ws ++ ccLit) = ccLit ++ ws) ∧
    fixAll "*/   */".data = "*/   ".data := by
  refine ⟨subC_marker_pair, ?_⟩
  decide

/-- C3 witness: the amended rule C statement applied to a concrete
two-character whitespace gap. -/
theorem c3_witness :
    (∀ c ∈ [' ', '\t'], isPySpace c = true) ∧
    subC (ccLit ++ [' ', '\t'] ++ ccLit) = ccLit ++ [' ', '\t'] :=
  ⟨by decide, c3_rule_c_keeps_gap.1 [' ', '\t'] (by decide)⟩

/-- C4: every per-file error is absorbed at the file boundary.  A file
whose read raises contributes nothing to either counter and adds exactly a
read attempt and an error line (carrying its path) to the trace, and the
remaining files are processed exactly as they would have been without it; a
file whose rewrite raises in fix mode leaves files_processed alone, adds
one to errors_found, logs the error with the path, and the run likewise
continues with the next file.  The embedded run is a total function, so no
error escapes process_css_files. -/
theorem c4_errors_contained (fm : Bool) (l1 l2 : List Visited) (v : Visited) :
    (v.vnode.readOk = false →
      runStateList fm (l1 ++ v :: l2) = runStateList fm (l1 ++ l2) ∧
      evList fm (l1 ++ v :: l2) = evList fm l1 ++
        ([Event.readF (v.vpath ++ [v.vname]), Event.logErr (v.vpath ++ [v.vname])] ++
          evList fm l2)) ∧
    (v.vnode.readOk = true → fixAll v.vnode.content ≠ v.vnode.content →
      v.vnode.writeOk = false →
      runStateList true (l1 ++ v :: l2) =
        ⟨(runStateList true (l1 ++ l2)).files_processed,
         (runStateList true (l1 ++ l2)).errors_found + 1⟩ ∧
      evList true (l1 ++ v :: l2) = evList true l1 ++
        ([Event.readF (v.vpath ++ [v.vname]),
          Event.writeF (v.vpath ++ [v.vname]) (fixAll v.vnode.content),
          Event.logErr (v.vpath ++ [v.vname])] ++ evList true l2)) := by
  constructor
  · intro hr
    have hpi : procInc fm v.vnode = 0 := by simp [procInc, hr]
    have hei : errInc v.vnode = 0 := by simp [errInc, hr]
    constructor
    · rw [runStateList_eq, runStateList_eq, procCount_append, procCount_cons,
        errCount_append, errCount_cons, procCount_append, errCount_append, hpi, hei]
      simp
    · rw [evList_append, evList_cons, fileEvents_read_fail hr]
  · intro hr hch hw
    have hpi : procInc true v.vnode = 0 := by
      rw [procInc, if_neg]
      intro hcond
      exact hcond.2 ⟨hch, rfl, hw⟩
    have hei : errInc v.vnode = 1 := by
      rw [errInc, if_pos ⟨hr, hch⟩]
    constructor
    · rw [runStateList_eq, runStateList_eq, procCount_append, procCount_cons,
        errCount_append, errCount_cons, procCount_append, errCount_append, hpi, hei]
      simp only [RunState.mk.injEq]
      constructor <;> omega
    · rw [evList_append, evList_cons, fileEvents_write_fail hr hch hw]

/-- C4 witness: the read-failure half of the containment theorem at a
concrete one-file list. -/
theorem c4_witness :
    runStateList false ([] ++ ⟨[], "x.css", badReadNode⟩ :: []) =
      runStateList false ([] ++ []) ∧
    evList false ([] ++ (⟨[], "x.css", badReadNode⟩ : Visited) :: []) =
      evList false [] ++
        ([Event.readF ([] ++ ["x.css"]), Event.logErr ([] ++ ["x.css"])] ++
          evList false []) :=
  (c4_errors_contained false [] [] ⟨[], "x.css", badReadNode⟩).1 (by decide)

/-- C5: in a well-formed tree (sibling names unique, as on a real
filesystem) every read, write or error event of a run touches a path whose
file name ends in .css and whose directory part contains no component named
node_modules: files with another extension and everything below a
node_modules directory are never read and never written, because the
single dirs.remove call prunes such a directory from descent entirely. -/
theorem c5_excluded_files_untouched (fm : Bool) (t : FSDir) (hw : FSDir.wf t = true)
    (e : Event) (he : e ∈ runEvents fm t) :
    ∃ d nm, eventPath e = d ++ [nm] ∧ endsCss nm = true ∧ "node_modules" ∉ d := by
  rw [runEvents, evList, List.mem_flatMap] at he
  obtain ⟨v, hv, hef⟩ := he
  have hp := mem_fileEvents_path hef
  obtain ⟨hcss, q, hq, hnq⟩ := walkDir_inv [] t hw v hv
  refine ⟨v.vpath, v.vname, hp, hcss, ?_⟩
  rw [List.nil_append] at hq
  rw [hq]
  exact hnq

/-- C5 witness: the traversal theorem at the demo tree (which contains a
non-css file and a css file below node_modules) and its first event. -/
theorem c5_witness :
    FSDir.wf demoTree = true ∧
    (∃ d nm, eventPath (Event.readF ["a.css"]) = d ++ [nm] ∧
      endsCss nm = true ∧ "node_modules" ∉ d) :=
  ⟨by decide,
    c5_excluded_files_untouched false demoTree (by decide) (Event.readF ["a.css"])
      (by decide)⟩

/-- C6: scan-only mode never writes.  No event of a scan run is a write,
and the on-disk bytes of any file after its iteration in scan mode equal
its bytes before, however many issues were detected. -/
theorem c6_scan_mode_never_writes :
    (∀ (t : FSDir) (e : Event), e ∈ runEvents false t → Event.isWrite e = false) ∧
    (∀ f : FileNode, finalContent false f = f.content) := by
  constructor
  · intro t e he
    rw [runEvents, evList, List.mem_flatMap] at he
    obtain ⟨v, _, hef⟩ := he
    exact fileEvents_scan_no_write hef
  · intro f
    rw [finalContent, if_neg]
    intro hcond
    exact absurd hcond.2.2.1 (by simp)

/-- C6 witness: the no-write statement applied to the first event of a scan
run over the demo tree. -/
theorem c6_witness : Event.isWrite (Event.readF ["a.css"]) = false :=
  c6_scan_mode_never_writes.1 demoTree (Event.readF ["a.css"]) (by decide)

/-- C7: the run accumulates the RunSummary pair across the whole run: for
every root tree and mode the final counter state of process_css_files is
exactly the pair of the filesProcessed and filesWithIssues totals summed
file by file over the traversal. -/
theorem c7_run_summary (fm : Bool) (t : FSDir) :
    runState fm t = ⟨filesProcessed fm t, filesWithIssues t⟩ := by
  rw [runState, runStateList_eq]
  rfl

/-- C8: rule B rewrites every occurrence of the malformed protocol to the
repaired one: the substitution maps any text consisting of a match-free
prefix, the malformed literal and a remainder to the prefix, the repaired
literal and the substituted remainder, so occurrences are replaced left to
right through the whole text; in particular the example text and a text
with two occurrences are both fully repaired by the rule table. -/
theorem c8_rule_b_replaces_all :
    (∀ a b : List Char, hasMatchB a = false →
      subB (a ++ (urlBad ++ b)) = a ++ (urlGood ++ subB b)) ∧
    fixAll "x http:/*example.com y".data = "x http://example.com y".data ∧
    fixAll "u http:/*a.com v http:/*b.org w".data =
      "u http://a.com v http://b.org w".data := by
  refine ⟨subB_step, ?_, ?_⟩ <;> decide

/-- C8 witness: the leftmost-step statement applied to a concrete prefix
and remainder. -/
theorem c8_witness :
    hasMatchB "ab".data = false ∧
    subB ("ab".data ++ (urlBad ++ "cd".data)) = "ab".data ++ (urlGood ++ subB "cd".data) :=
  ⟨by decide, c8_rule_b_replaces_all.1 "ab".data "cd".data (by decide)⟩

/-- C9: a text in which none of the three patterns matches is a fixed point
of the rule table; a readable file holding such a text contributes one to
files_processed and nothing to errors_found, and its on-disk bytes are
unchanged even in fix mode. -/
theorem c9_non_match_preserved (t : List Char) (fm wOk : Bool) (st : RunState)
    (hA : hasMatchA t = false) (hB : hasMatchB t = false) (hC : hasMatchC t = false) :
    fixAll t = t ∧
    processFile fm st ⟨t, true, wOk⟩ = ⟨st.files_processed + 1, st.errors_found⟩ ∧
    finalContent fm ⟨t, true, wOk⟩ = t := by
  have hfix : fixAll t = t := fixAll_id_of_no_match hA hB hC
  refine ⟨hfix, ?_, ?_⟩
  · rw [processFile, if_pos rfl, if_neg (by simp [hfix])]
  · rw [finalContent, if_neg]
    intro hcond
    exact hcond.2.1 hfix

/-- C9 witness: the preservation theorem at the clean demo file text. -/
theorem c9_witness :
    fixAll "body a color: red;\n".data = "body a color: red;\n".data ∧
    processFile true ⟨0, 0⟩ ⟨"body a color: red;\n".data, true, true⟩ = ⟨1, 0⟩ ∧
    finalContent true ⟨"body a color: red;\n".data, true, true⟩ =
      "body a color: red;\n".data :=
  c9_non_match_preserved "body a color: red;\n".data true true ⟨0, 0⟩
    (by decide) (by decide) (by decide)

/-- C10: a failed rewrite in fix mode leaves the per-file state update
half done: for a readable, changed file whose write raises, errors_found
has already been incremented when the exception fires, so the file still
counts in the final fixed-files total, while files_processed is not
incremented for it. -/
theorem c10_write_failure_partial_update (st : RunState) (f : FileNode)
    (hr : f.readOk = true) (hch : fixAll f.content ≠ f.content) (hw : f.writeOk = false) :
    processFile true st f = ⟨st.files_processed, st.errors_found + 1⟩ := by
  rw [processFile, if_pos hr, if_pos hch, if_pos rfl, if_neg (by simp [hw])]

/-- C10 witness: the partial-update theorem at the concrete changed file
whose write raises. -/
theorem c10_witness : processFile true ⟨0, 0⟩ badWriteNode = ⟨0, 1⟩ :=
  c10_write_failure_partial_update ⟨0, 0⟩ badWriteNode (by decide) (by decide) (by decide)

end Finder
